import Mathlib

/-!
Verification of the Legendre–Gauss–Radau transcription operations of
`CasOCLegendreGaussRadau.cpp` (namespace `CasOC`) and of the component
output/channel mechanism of `ComponentOutput.h` (class `OpenSim::Output`).

Matrices (`casadi::DM`, `casadi::MX`) are embedded as total functions
`ℕ → ℚ` (column vectors) and `ℕ → ℕ → ℚ` (row, column); element and
slice assignments become pointwise functional updates, and the C++ `for`
loops become left folds over `List.range`.  Symbolic `MX` arithmetic is
evaluated over `ℚ`; the structural identities proved below hold for the
expression graphs entrywise.
-/

/-- Pointwise update of a vector at one index (element assignment on a
`casadi::DM`/`MX` column vector). -/
def upd1 (v : ℕ → ℚ) (k : ℕ) (a : ℚ) : ℕ → ℚ :=
  fun j => if j = k then a else v j

/-- Pointwise update of a matrix at one (row, column) entry (element
assignment on a `casadi::MX` matrix). -/
def upd2 (f : ℕ → ℕ → ℚ) (r c : ℕ) (a : ℚ) : ℕ → ℕ → ℚ :=
  fun i j => if i = r ∧ j = c then a else f i j

/-- The fixed configuration of the `CasOC::LegendreGaussRadau` transcription:
the user mesh, the polynomial degree, and the structural tables
(`m_quadratureCoefficients`, `m_times`, `m_differentiationMatrix`,
`m_legendreRoots`), together with the problem counts and the two
midpoint-interpolation flags consumed from the solver/problem. -/
structure LegendreGaussRadau where
  mesh : List ℚ
  degree : ℕ
  quadratureCoefficients : ℕ → ℚ
  times : ℕ → ℚ
  differentiationMatrix : ℕ → ℕ → ℚ
  legendreRoots : ℕ → ℚ
  numStates : ℕ
  numControls : ℕ
  numMultipliers : ℕ
  interpolateControlMidpoints : Bool
  interpolateMultiplierMidpoints : Bool

/-- Modelled from the spec: `m_numMeshPoints` is the length of the user mesh
(the member lives in the base class `CasOCTranscription`, whose header is not
part of the sources; spec section 3). -/
def LegendreGaussRadau.numMeshPoints (S : LegendreGaussRadau) : ℕ :=
  S.mesh.length

/-- Modelled from the spec: `numMeshIntervals = len(mesh) - 1` (spec section 3). -/
def LegendreGaussRadau.numMeshIntervals (S : LegendreGaussRadau) : ℕ :=
  S.numMeshPoints - 1

/-- Modelled from the spec: `numGridPoints = numMeshIntervals * degree + 1`
(spec section 3). -/
def LegendreGaussRadau.numGridPoints (S : LegendreGaussRadau) : ℕ :=
  S.numMeshIntervals * S.degree + 1

/-- Entry `imesh` of `mesh(Slice(1, m_numMeshPoints)) -
mesh(Slice(0, m_numMeshPoints - 1))`: the duration of mesh interval `imesh`. -/
def LegendreGaussRadau.meshIntervals (S : LegendreGaussRadau) (imesh : ℕ) : ℚ :=
  S.mesh.getD (imesh + 1) 0 - S.mesh.getD imesh 0

/-- `LegendreGaussRadau::createQuadratureCoefficientsImpl`: starting from the
all-zero vector of length `m_numGridPoints`, each mesh interval `imesh` adds
`w(d) * meshIntervals(imesh)` into entry `imesh * degree + d + 1`,
for `d` in `[0, degree)`. -/
def LegendreGaussRadau.createQuadratureCoefficientsImpl
    (S : LegendreGaussRadau) : ℕ → ℚ :=
  (List.range S.numMeshIntervals).foldl
    (fun q imesh =>
      (List.range S.degree).foldl
        (fun q d =>
          upd1 q (imesh * S.degree + d + 1)
            (q (imesh * S.degree + d + 1)
              + S.quadratureCoefficients d * S.meshIntervals imesh))
        q)
    (fun _ => 0)

/-- `LegendreGaussRadau::createMeshIndicesImpl`: starting from the all-zero
vector, set entry `imesh * degree` to 1 for each `imesh` below
`m_numMeshIntervals`, then set entry `m_numGridPoints - 1` to 1. -/
def LegendreGaussRadau.createMeshIndicesImpl
    (S : LegendreGaussRadau) : ℕ → ℚ :=
  upd1
    ((List.range S.numMeshIntervals).foldl
      (fun v imesh => upd1 v (imesh * S.degree) 1)
      (fun _ => 0))
    (S.numGridPoints - 1) 1

/-- Entry `(s, d)` of the per-interval residual matrix
`h * xdot_i - MX::mtimes(x_i, m_differentiationMatrix)` of
`calcDefectsImpl`, where `h = m_times(igrid + degree) - m_times(igrid)`,
`xdot_i = xdot(:, Slice(igrid + 1, igrid + degree + 1))` and
`x_i = x[imesh](:, Slice(0, degree + 1))`, with `igrid = imesh * degree`. -/
def LegendreGaussRadau.residualEntry (S : LegendreGaussRadau)
    (x : ℕ → ℕ → ℕ → ℚ) (xdot : ℕ → ℕ → ℚ) (imesh s d : ℕ) : ℚ :=
  (S.times (imesh * S.degree + S.degree) - S.times (imesh * S.degree))
      * xdot s (imesh * S.degree + d + 1)
    - (Finset.range (S.degree + 1)).sum
        (fun j => x imesh s j * S.differentiationMatrix j d)

/-- `LegendreGaussRadau::calcDefectsImpl`: for each mesh interval `imesh` and
each `d` in `[0, degree)`, the slice assignment
`defects(Slice(d * NS, (d + 1) * NS), imesh) = residual(Slice(), d)` writes
row `d * NS + s` of column `imesh` for every state row `s < NS`. -/
def LegendreGaussRadau.calcDefectsImpl (S : LegendreGaussRadau)
    (x : ℕ → ℕ → ℕ → ℚ) (xdot : ℕ → ℕ → ℚ)
    (defects : ℕ → ℕ → ℚ) : ℕ → ℕ → ℚ :=
  (List.range S.numMeshIntervals).foldl
    (fun df imesh =>
      (List.range S.degree).foldl
        (fun df d =>
          (List.range S.numStates).foldl
            (fun df s =>
              upd2 df (d * S.numStates + s) imesh
                (S.residualEntry x xdot imesh s d))
            df)
        df)
    defects

/-- Entry `r` of the column written by `calcInterpolatingVariables` for
interval `imesh` and interior index `d`:
`x_t - (m_legendreRoots[d] * (x_ip1 - x_i) + x_i)` where
`x_i = vars(:, igrid)`, `x_ip1 = vars(:, igrid + degree)` and
`x_t = vars(:, igrid + d + 1)`, with `igrid = imesh * degree`. -/
def LegendreGaussRadau.interpEntry (S : LegendreGaussRadau)
    (vars : ℕ → ℕ → ℚ) (r imesh d : ℕ) : ℚ :=
  vars r (imesh * S.degree + d + 1)
    - (S.legendreRoots d
        * (vars r (imesh * S.degree + S.degree)
            - vars r (imesh * S.degree))
       + vars r (imesh * S.degree))

/-- `LegendreGaussRadau::calcInterpolatingVariables`: for each mesh interval
`imesh` and each `d` in `[0, degree - 1)`, the slice assignment
`interpVariables(Slice(), imesh * (degree - 1) + d) = ...` writes every row
`r` below the row count `nrows` of the vars matrix. -/
def LegendreGaussRadau.calcInterpolatingVariables (S : LegendreGaussRadau)
    (nrows : ℕ) (vars interpVariables : ℕ → ℕ → ℚ) : ℕ → ℕ → ℚ :=
  (List.range S.numMeshIntervals).foldl
    (fun iv imesh =>
      (List.range (S.degree - 1)).foldl
        (fun iv d =>
          (List.range nrows).foldl
            (fun iv r =>
              upd2 iv r (imesh * (S.degree - 1) + d)
                (S.interpEntry vars r imesh d))
            iv)
        iv)
    interpVariables

/-- `LegendreGaussRadau::calcInterpolatingControlsImpl`: runs
`calcInterpolatingVariables` on the controls only when
`m_problem.getNumControls()` is nonzero and
`m_solver.getInterpolateControlMidpoints()` holds; otherwise the output
argument is left unchanged. -/
def LegendreGaussRadau.calcInterpolatingControlsImpl (S : LegendreGaussRadau)
    (controls interpControls : ℕ → ℕ → ℚ) : ℕ → ℕ → ℚ :=
  if S.numControls ≠ 0 ∧ S.interpolateControlMidpoints = true then
    S.calcInterpolatingVariables S.numControls controls interpControls
  else interpControls

/-- `LegendreGaussRadau::calcInterpolatingMultipliersImpl`: runs
`calcInterpolatingVariables` on the multipliers only when
`m_problem.getNumMultipliers()` is nonzero and
`m_solver.getInterpolateMultiplierMidpoints()` holds; otherwise the output
argument is left unchanged. -/
def LegendreGaussRadau.calcInterpolatingMultipliersImpl (S : LegendreGaussRadau)
    (multipliers interpMultipliers : ℕ → ℕ → ℚ) : ℕ → ℕ → ℚ :=
  if S.numMultipliers ≠ 0 ∧ S.interpolateMultiplierMidpoints = true then
    S.calcInterpolatingVariables S.numMultipliers multipliers interpMultipliers
  else interpMultipliers

/-!
Embedding of `ComponentOutput.h`.  A `SimTK::State` is abstracted to its
system stage (`SimTK::Stage` is an ordered enumeration, embedded as `ℕ`);
the owning `Component` and the value type `T` stay abstract.  The C++
exceptions (`Exception("TODO")` for list-output misuse and
`SimTK::Exception::StageTooLow`) become the error side of `Except`.
Object identity (the `this` pointer held by each `Channel` through
`SimTK::ReferencePtr<const Output<T>>`) is embedded as a numeric `id` field:
two distinct live objects have distinct ids, and a channel points at the
output whose id it stores. -/

/-- The realization stage of a `SimTK::State`, `Stage` embedded as `ℕ`. -/
structure SimState where
  systemStage : ℕ

/-- The exceptions thrown in `ComponentOutput.h`: the generic
`Exception("TODO")` and `SimTK::Exception::StageTooLow`. -/
inductive OutputExn where
  | todo : OutputExn
  | stageTooLow : OutputExn

/-- The empty channel-name string passed by `Output<T>::getValue` to the
bound output function. -/
def emptyChannelName : String := ""

/-- `Output<T>::Channel`: holds the owning output (a `ReferencePtr`,
embedded as the owning output's id) and the channel's name. -/
structure Channel where
  outputId : ℕ
  name : String

/-- `OpenSim::Output<T>`: name, depends-on stage and list flag from
`AbstractOutput`, the bound output function `_outputFcn`, and the channel
map `_channels` (association list keyed by channel name).  `id` embeds the
object's address. -/
structure Output (C T : Type) where
  id : ℕ
  name : String
  dependsOnStage : ℕ
  isList : Bool
  outputFcn : C → SimState → String → T
  channels : List (String × Channel)

/-- The convenience constructor `Output<T>::Output(name, outputFunction,
dependsOnStage, isList)`: for a non-list output it inserts the single
channel `"one"` owned by the new object; a list output starts with no
channels. -/
def Output.make (C T : Type) (id : ℕ) (name : String)
    (outputFunction : C → SimState → String → T)
    (dependsOnStage : ℕ) (isList : Bool) : Output C T :=
  { id := id
    name := name
    dependsOnStage := dependsOnStage
    isList := isList
    outputFcn := outputFunction
    channels := if isList then [] else [("one", { outputId := id, name := "one" })] }

/-- `Output<T>::getValue(state)`: a list output throws `Exception("TODO")`;
otherwise, if the state's system stage is below `getDependsOnStage()` it
throws `StageTooLow`; otherwise it evaluates `_outputFcn(_owner.get(),
state, "")` and returns the result. -/
def Output.getValue (C T : Type) (o : Output C T) (owner : C)
    (state : SimState) : Except OutputExn T :=
  if o.isList = true then
    Except.error OutputExn.todo
  else if state.systemStage < o.dependsOnStage then
    Except.error OutputExn.stageTooLow
  else
    Except.ok (o.outputFcn owner state emptyChannelName)

/-- `Output<T>::clearChannels()`: throws `Exception("TODO")` for a non-list
output, otherwise clears the channel map. -/
def Output.clearChannels (C T : Type) (o : Output C T) :
    Except OutputExn (Output C T) :=
  if o.isList = false then Except.error OutputExn.todo
  else Except.ok { o with channels := [] }

/-- Insert-or-overwrite on the channel map, the semantics of
`_channels[channelName] = Channel(...)` on a `std::unordered_map`. -/
def mapInsert (m : List (String × Channel)) (k : String) (v : Channel) :
    List (String × Channel) :=
  if m.any (fun p => p.1 = k) then
    m.map (fun p => if p.1 = k then (k, v) else p)
  else m ++ [(k, v)]

/-- `Output<T>::addChannel(channelName)`: throws `Exception("TODO")` for a
non-list output, otherwise stores `Channel(this, channelName)` under
`channelName`. -/
def Output.addChannel (C T : Type) (o : Output C T) (channelName : String) :
    Except OutputExn (Output C T) :=
  if o.isList = false then Except.error OutputExn.todo
  else Except.ok
    { o with channels := mapInsert o.channels channelName ⟨o.id, channelName⟩ }

/-- The copy constructor `Output<T>::Output(const Output&)`: copies the
`AbstractOutput` part, `_outputFcn` and `_channels`, then resets every
channel's `_output` pointer to the new object (`newId` embeds the new
object's address). -/
def Output.copyConstruct (C T : Type) (newId : ℕ) (source : Output C T) :
    Output C T :=
  { source with
    id := newId
    channels := source.channels.map
      (fun p => (p.1, { p.2 with outputId := newId })) }

/-- The copy assignment operator `Output<T>::operator=(const Output&)`,
embedded with explicit fuel for the call stack (`none` = the recursion
never returns, i.e. stack overflow).  The body first checks
`&source == this` (id equality); otherwise it calls
`AbstractOutput::operator=(source)`, whose body calls the virtual
`compatibleAssign(source)`, which executes `*this = downcast(source)` —
re-entering this very operator (the recursive call at one unit less fuel).
Only if that inner call returned would the body go on to copy `_outputFcn`
and `_channels` and rebind each channel's `_output` pointer to `this`. -/
def Output.opAssign (C T : Type) :
    ℕ → Output C T → Output C T → Option (Output C T)
  | 0, _, _ => none
  | fuel + 1, this_, source =>
    if this_.id = source.id then some this_
    else
      match Output.opAssign C T fuel this_ source with
      | none => none
      | some t1 =>
        some { t1 with
          outputFcn := source.outputFcn
          channels := source.channels.map
            (fun p => (p.1, { p.2 with outputId := t1.id })) }

/-- A concrete configuration used to evaluate the operations: the spec's
scenario mesh `[0, 0.5, 1]` with degree 3, one state, one control (with
control-midpoint interpolation on) and two multipliers (with
multiplier-midpoint interpolation off). -/
def sampleLGR : LegendreGaussRadau where
  mesh := [0, 1/2, 1]
  degree := 3
  quadratureCoefficients := fun d => (d : ℚ) + 1
  times := fun i => (i : ℚ) / 6
  differentiationMatrix := fun j d => (j : ℚ) - (d : ℚ)
  legendreRoots := fun d => ((d : ℚ) + 1) / 4
  numStates := 1
  numControls := 1
  numMultipliers := 2
  interpolateControlMidpoints := true
  interpolateMultiplierMidpoints := false

/-- The same configuration with base quadrature weights that sum to 1, as
for a genuine degree-3 Radau rule. -/
def sampleLGRw : LegendreGaussRadau :=
  { sampleLGR with
    quadratureCoefficients := fun d =>
      if d = 0 then 1/4 else if d = 1 then 1/4 else if d = 2 then 1/2 else 0 }

/-- Concrete state samples (one matrix per mesh interval). -/
def sampleX : ℕ → ℕ → ℕ → ℚ := fun imesh r c => (imesh : ℚ) + r + c

/-- A concrete matrix of decision-variable samples. -/
def sampleM : ℕ → ℕ → ℚ := fun r c => (r : ℚ) * 2 + c

/-- A second concrete matrix, used as an output buffer. -/
def sampleN : ℕ → ℕ → ℚ := fun r c => (r : ℚ) - c

/-- A concrete non-list output over trivial component and value types. -/
def sampleOutputA : Output Unit Unit where
  id := 0
  name := "force"
  dependsOnStage := 3
  isList := false
  outputFcn := fun _ _ _ => ()
  channels := [("one", { outputId := 0, name := "one" })]

/-- A second concrete output, distinct from `sampleOutputA`. -/
def sampleOutputB : Output Unit Unit where
  id := 1
  name := "speed"
  dependsOnStage := 1
  isList := false
  outputFcn := fun _ _ _ => ()
  channels := [("one", { outputId := 1, name := "one" })]

/-- A concrete state realized to stage 2. -/
def sampleState : SimState where
  systemStage := 2

/-!
Generic lemmas about left folds of pointwise writes over `List.range`:
when each loop iteration `i` writes a value `val i` at positions described
by a predicate `P i`, and distinct iterations write distinct positions,
the fold is characterised position by position.
-/

/-- A loop of matrix writes at pairwise-distinct positions: a position hit
by iteration `i` ends with `i`'s value. -/
theorem foldlWrite2_hit (g : (ℕ → ℕ → ℚ) → ℕ → ℕ → ℕ → ℚ)
    (P : ℕ → ℕ → ℕ → Prop) (val : ℕ → ℕ → ℕ → ℚ)
    (hgP : ∀ df i r c, P i r c → g df i r c = val i r c)
    (hgN : ∀ df i r c, ¬ P i r c → g df i r c = df r c)
    (hdisj : ∀ i j r c, P i r c → P j r c → i = j) :
    ∀ n df i r c, i < n → P i r c →
      (List.range n).foldl g df r c = val i r c := by
  intro n
  induction n with
  | zero => intro df i r c hi _; exact absurd hi (Nat.not_lt_zero i)
  | succ m ih =>
    intro df i r c hi hP
    rw [List.range_succ, List.foldl_append, List.foldl_cons, List.foldl_nil]
    by_cases him : i = m
    · subst him
      exact hgP _ _ _ _ hP
    · have hPm : ¬ P m r c := fun hPm => him (hdisj i m r c hP hPm)
      rw [hgN _ _ _ _ hPm]
      exact ih df i r c (by omega) hP

/-- A loop of matrix writes: a position hit by no iteration is unchanged. -/
theorem foldlWrite2_miss (g : (ℕ → ℕ → ℚ) → ℕ → ℕ → ℕ → ℚ)
    (P : ℕ → ℕ → ℕ → Prop)
    (hgN : ∀ df i r c, ¬ P i r c → g df i r c = df r c) :
    ∀ n df r c, (∀ i, i < n → ¬ P i r c) →
      (List.range n).foldl g df r c = df r c := by
  intro n
  induction n with
  | zero => intro df r c _; rw [List.range_zero, List.foldl_nil]
  | succ m ih =>
    intro df r c hmiss
    rw [List.range_succ, List.foldl_append, List.foldl_cons, List.foldl_nil,
      hgN _ _ _ _ (hmiss m (by omega))]
    exact ih df r c (fun i hi => hmiss i (by omega))

/-- A loop of vector accumulations: a position hit by no iteration is
unchanged. -/
theorem foldlAcc_miss (g : (ℕ → ℚ) → ℕ → ℕ → ℚ)
    (P : ℕ → ℕ → Prop)
    (hgN : ∀ q i j, ¬ P i j → g q i j = q j) :
    ∀ n q j, (∀ i, i < n → ¬ P i j) →
      (List.range n).foldl g q j = q j := by
  intro n
  induction n with
  | zero => intro q j _; rw [List.range_zero, List.foldl_nil]
  | succ m ih =>
    intro q j hmiss
    rw [List.range_succ, List.foldl_append, List.foldl_cons, List.foldl_nil,
      hgN _ _ _ (hmiss m (by omega))]
    exact ih q j (fun i hi => hmiss i (by omega))

/-- A loop of vector accumulations (`+=`) at pairwise-distinct positions: a
position hit by iteration `i` ends with its initial value plus `i`'s
contribution. -/
theorem foldlAcc_hit (g : (ℕ → ℚ) → ℕ → ℕ → ℚ)
    (P : ℕ → ℕ → Prop) (val : ℕ → ℕ → ℚ)
    (hgP : ∀ q i j, P i j → g q i j = q j + val i j)
    (hgN : ∀ q i j, ¬ P i j → g q i j = q j)
    (hdisj : ∀ i k j, P i j → P k j → i = k) :
    ∀ n q i j, i < n → P i j →
      (List.range n).foldl g q j = q j + val i j := by
  intro n
  induction n with
  | zero => intro q i j hi _; exact absurd hi (Nat.not_lt_zero i)
  | succ m ih =>
    intro q i j hi hP
    rw [List.range_succ, List.foldl_append, List.foldl_cons, List.foldl_nil]
    by_cases him : i = m
    · subst him
      rw [hgP _ _ _ hP]
      have hm : ∀ k, k < i → ¬ P k j := fun k hk hPk => by
        have := hdisj k i j hPk hP
        omega
      rw [foldlAcc_miss g P hgN i q j hm]
    · have hPm : ¬ P m j := fun hPm => him (hdisj i m j hP hPm)
      rw [hgN _ _ _ hPm]
      exact ih q i j (by omega) hP

/-- A loop writing the constant 1 at index `key i`: a position hit by some
iteration ends at 1 (no disjointness needed). -/
theorem foldlOnes_hit (key : ℕ → ℕ) :
    ∀ n (v : ℕ → ℚ) i j, i < n → j = key i →
      (List.range n).foldl (fun v i => upd1 v (key i) 1) v j = 1 := by
  intro n
  induction n with
  | zero => intro v i j hi _; exact absurd hi (Nat.not_lt_zero i)
  | succ m ih =>
    intro v i j hi hkey
    rw [List.range_succ, List.foldl_append, List.foldl_cons, List.foldl_nil]
    by_cases hjm : j = key m
    · rw [upd1, if_pos hjm]
    · have him : i ≠ m := fun he => hjm (he ▸ hkey)
      rw [upd1]
      simp only [if_neg hjm]
      exact ih v i j (by omega) hkey

/-- A loop writing the constant 1 at index `key i`: a position hit by no
iteration is unchanged. -/
theorem foldlOnes_miss (key : ℕ → ℕ) :
    ∀ n (v : ℕ → ℚ) j, (∀ i, i < n → j ≠ key i) →
      (List.range n).foldl (fun v i => upd1 v (key i) 1) v j = v j := by
  intro n
  induction n with
  | zero => intro v j _; rw [List.range_zero, List.foldl_nil]
  | succ m ih =>
    intro v j hmiss
    rw [List.range_succ, List.foldl_append, List.foldl_cons, List.foldl_nil,
      upd1]
    simp only [if_neg (hmiss m (by omega))]
    exact ih v j (fun i hi => hmiss i (by omega))

/-- If `r` lies in the `d`-th and in the `e`-th length-`w` slot, the slots
coincide. -/
theorem slot_eq {w r d e : ℕ} (h1 : d * w ≤ r) (h2 : r < d * w + w)
    (h3 : e * w ≤ r) (h4 : r < e * w + w) : d = e := by
  rcases Nat.lt_trichotomy d e with h | h | h
  · have hm : (d + 1) * w ≤ e * w := Nat.mul_le_mul_right w h
    rw [Nat.add_mul, Nat.one_mul] at hm
    omega
  · exact h
  · have hm : (e + 1) * w ≤ d * w := Nat.mul_le_mul_right w h
    rw [Nat.add_mul, Nat.one_mul] at hm
    omega

/-!
Characterisation of `createQuadratureCoefficientsImpl`.
-/

/-- Inner loop of `createQuadratureCoefficientsImpl` for one interval: an
index inside the interval's window receives exactly one contribution. -/
theorem quadInner_hit (S : LegendreGaussRadau) (imesh : ℕ) (q : ℕ → ℚ)
    (j : ℕ) (h1 : imesh * S.degree + 1 ≤ j)
    (h2 : j < imesh * S.degree + S.degree + 1) :
    (List.range S.degree).foldl
      (fun q d =>
        upd1 q (imesh * S.degree + d + 1)
          (q (imesh * S.degree + d + 1)
            + S.quadratureCoefficients d * S.meshIntervals imesh))
      q j
    = q j + S.quadratureCoefficients (j - imesh * S.degree - 1)
        * S.meshIntervals imesh := by
  refine foldlAcc_hit _
    (fun d j => j = imesh * S.degree + d + 1)
    (fun d j => S.quadratureCoefficients d * S.meshIntervals imesh)
    ?_ ?_ ?_ S.degree q (j - imesh * S.degree - 1) j (by omega) (by omega)
  · intro q d j hkey
    simp [upd1, hkey]
  · intro q d j hne
    simp only [upd1]
    rw [if_neg hne]
  · intro d e j hd he
    omega

/-- Inner loop of `createQuadratureCoefficientsImpl`: an index outside the
interval's window is unchanged. -/
theorem quadInner_miss (S : LegendreGaussRadau) (imesh : ℕ) (q : ℕ → ℚ)
    (j : ℕ)
    (h : ¬(imesh * S.degree + 1 ≤ j ∧ j < imesh * S.degree + S.degree + 1)) :
    (List.range S.degree).foldl
      (fun q d =>
        upd1 q (imesh * S.degree + d + 1)
          (q (imesh * S.degree + d + 1)
            + S.quadratureCoefficients d * S.meshIntervals imesh))
      q j
    = q j := by
  refine foldlAcc_miss _ (fun d j => j = imesh * S.degree + d + 1) ?_
    S.degree q j ?_
  · intro q d j hne
    simp only [upd1]
    rw [if_neg hne]
  · intro d hd hkey
    exact h (by omega)

/-- Entry 0 of the quadrature coefficients is never touched: it stays 0. -/
theorem quad_entry_zero (S : LegendreGaussRadau) :
    S.createQuadratureCoefficientsImpl 0 = 0 := by
  unfold LegendreGaussRadau.createQuadratureCoefficientsImpl
  refine foldlAcc_miss _
    (fun imesh j =>
      imesh * S.degree + 1 ≤ j ∧ j < imesh * S.degree + S.degree + 1)
    ?_ S.numMeshIntervals (fun _ => 0) 0 ?_
  · intro q imesh j hne
    exact quadInner_miss S imesh q j hne
  · intro imesh hlt
    omega

/-- Every grid index in `[1, numGridPoints)` receives exactly the single
contribution `w[(i-1) % degree] * meshIntervals[(i-1) / degree]`. -/
theorem quad_entry_hit (S : LegendreGaussRadau) (i : ℕ)
    (h1 : 1 ≤ i) (h2 : i < S.numGridPoints) :
    S.createQuadratureCoefficientsImpl i
    = S.quadratureCoefficients ((i - 1) % S.degree)
        * S.meshIntervals ((i - 1) / S.degree) := by
  have ht : i - 1 < S.numMeshIntervals * S.degree := by
    have := S.numGridPoints
    unfold LegendreGaussRadau.numGridPoints at h2
    omega
  have hdeg : 0 < S.degree := by
    rcases Nat.eq_zero_or_pos S.degree with h0 | hpos
    · rw [h0, Nat.mul_zero] at ht
      omega
    · exact hpos
  have hdm := Nat.div_add_mod (i - 1) S.degree
  have hmlt : (i - 1) % S.degree < S.degree := Nat.mod_lt _ hdeg
  have hql : (i - 1) / S.degree < S.numMeshIntervals := by
    rw [Nat.div_lt_iff_lt_mul hdeg]
    exact ht
  have hcm : S.degree * ((i - 1) / S.degree)
      = ((i - 1) / S.degree) * S.degree := Nat.mul_comm _ _
  unfold LegendreGaussRadau.createQuadratureCoefficientsImpl
  have key := foldlAcc_hit
    (fun q imesh =>
      (List.range S.degree).foldl
        (fun q d =>
          upd1 q (imesh * S.degree + d + 1)
            (q (imesh * S.degree + d + 1)
              + S.quadratureCoefficients d * S.meshIntervals imesh))
        q)
    (fun imesh j =>
      imesh * S.degree + 1 ≤ j ∧ j < imesh * S.degree + S.degree + 1)
    (fun imesh j =>
      S.quadratureCoefficients (j - imesh * S.degree - 1)
        * S.meshIntervals imesh)
    (fun q imesh j hj => quadInner_hit S imesh q j hj.1 hj.2)
    (fun q imesh j hj => quadInner_miss S imesh q j hj)
    (fun a b j ha2 hb => by
      have h1a : a * S.degree ≤ j - 1 := by omega
      have h2a : j - 1 < a * S.degree + S.degree := by omega
      have h1b : b * S.degree ≤ j - 1 := by omega
      have h2b : j - 1 < b * S.degree + S.degree := by omega
      exact slot_eq h1a h2a h1b h2b)
    S.numMeshIntervals (fun _ => 0) ((i - 1) / S.degree) i hql (by omega)
  rw [key]
  have harg : i - ((i - 1) / S.degree) * S.degree - 1
      = (i - 1) % S.degree := by omega
  simp only [harg, zero_add]

/-!
Characterisation of `createMeshIndicesImpl`.
-/

/-- Every index of the form `k * degree` with `k ≤ numMeshIntervals` holds
a one. -/
theorem meshIndices_one (S : LegendreGaussRadau) (j k : ℕ)
    (hk : k ≤ S.numMeshIntervals) (hj : j = k * S.degree) :
    S.createMeshIndicesImpl j = 1 := by
  unfold LegendreGaussRadau.createMeshIndicesImpl
  by_cases hlast : j = S.numGridPoints - 1
  · rw [upd1, if_pos hlast]
  · rw [upd1, if_neg hlast]
    have hkM : k < S.numMeshIntervals := by
      rcases Nat.lt_or_ge k S.numMeshIntervals with h | h
      · exact h
      · exfalso
        apply hlast
        have hkeq : k = S.numMeshIntervals := by omega
        rw [hkeq] at hj
        unfold LegendreGaussRadau.numGridPoints
        omega
    exact foldlOnes_hit (fun imesh => imesh * S.degree)
      S.numMeshIntervals (fun _ => 0) k j hkM hj

/-- Every index that is not a multiple `k * degree` with
`k ≤ numMeshIntervals` holds a zero. -/
theorem meshIndices_zero (S : LegendreGaussRadau) (j : ℕ)
    (h : ∀ k, k ≤ S.numMeshIntervals → j ≠ k * S.degree) :
    S.createMeshIndicesImpl j = 0 := by
  unfold LegendreGaussRadau.createMeshIndicesImpl
  have hlast : j ≠ S.numGridPoints - 1 := by
    intro he
    apply h S.numMeshIntervals (le_refl _)
    unfold LegendreGaussRadau.numGridPoints at he
    omega
  rw [upd1, if_neg hlast]
  exact foldlOnes_miss (fun imesh => imesh * S.degree)
    S.numMeshIntervals (fun _ => 0) j
    (fun i hi => h i (by omega))

/-!
Characterisation of `calcDefectsImpl`: the three nested loops, innermost
first.
-/

/-- Innermost defect loop (one slice assignment): a row inside the block
`[d * NS, d * NS + NS)` of column `imesh` receives the residual entry. -/
theorem defectsInner_hit (S : LegendreGaussRadau)
    (x : ℕ → ℕ → ℕ → ℚ) (xdot : ℕ → ℕ → ℚ) (imesh d : ℕ)
    (df : ℕ → ℕ → ℚ) (r c : ℕ) (hc : c = imesh)
    (hlo : d * S.numStates ≤ r) (hhi : r < d * S.numStates + S.numStates) :
    (List.range S.numStates).foldl
      (fun df s =>
        upd2 df (d * S.numStates + s) imesh (S.residualEntry x xdot imesh s d))
      df r c
    = S.residualEntry x xdot imesh (r - d * S.numStates) d := by
  refine foldlWrite2_hit _
    (fun s r c => r = d * S.numStates + s ∧ c = imesh)
    (fun s r c => S.residualEntry x xdot imesh s d)
    ?_ ?_ ?_ S.numStates df (r - d * S.numStates) r c (by omega)
    ⟨by omega, hc⟩
  · intro df i r c hP
    simp [upd2, hP.1, hP.2]
  · intro df i r c hP
    simp only [upd2]
    rw [if_neg hP]
  · intro i j r c h1 h2
    omega

/-- Innermost defect loop: a position outside the block is unchanged. -/
theorem defectsInner_miss (S : LegendreGaussRadau)
    (x : ℕ → ℕ → ℕ → ℚ) (xdot : ℕ → ℕ → ℚ) (imesh d : ℕ)
    (df : ℕ → ℕ → ℚ) (r c : ℕ)
    (h : ¬(c = imesh ∧ d * S.numStates ≤ r ∧ r < d * S.numStates + S.numStates)) :
    (List.range S.numStates).foldl
      (fun df s =>
        upd2 df (d * S.numStates + s) imesh (S.residualEntry x xdot imesh s d))
      df r c
    = df r c := by
  refine foldlWrite2_miss _
    (fun s r c => r = d * S.numStates + s ∧ c = imesh)
    ?_ S.numStates df r c ?_
  · intro df i r c hP
    simp only [upd2]
    rw [if_neg hP]
  · intro s hs hP
    exact h ⟨hP.2, by omega, by omega⟩

/-- Middle defect loop (over `d`) for one interval: any row below
`degree * NS` of column `imesh` receives the residual entry of its block. -/
theorem defectsMid_hit (S : LegendreGaussRadau)
    (x : ℕ → ℕ → ℕ → ℚ) (xdot : ℕ → ℕ → ℚ) (imesh : ℕ)
    (df : ℕ → ℕ → ℚ) (r c : ℕ) (hc : c = imesh)
    (hr : r < S.degree * S.numStates) :
    (List.range S.degree).foldl
      (fun df d =>
        (List.range S.numStates).foldl
          (fun df s =>
            upd2 df (d * S.numStates + s) imesh
              (S.residualEntry x xdot imesh s d))
          df)
      df r c
    = S.residualEntry x xdot imesh (r % S.numStates) (r / S.numStates) := by
  have hNS : 0 < S.numStates := by
    rcases Nat.eq_zero_or_pos S.numStates with h0 | hpos
    · rw [h0, Nat.mul_zero] at hr
      omega
    · exact hpos
  have hdm := Nat.div_add_mod r S.numStates
  have hml : r % S.numStates < S.numStates := Nat.mod_lt _ hNS
  have hcm : S.numStates * (r / S.numStates)
      = (r / S.numStates) * S.numStates := Nat.mul_comm _ _
  have key := foldlWrite2_hit _
    (fun d r c =>
      c = imesh ∧ d * S.numStates ≤ r ∧ r < d * S.numStates + S.numStates)
    (fun d r c => S.residualEntry x xdot imesh (r - d * S.numStates) d)
    (fun df i r c hP =>
      defectsInner_hit S x xdot imesh i df r c hP.1 hP.2.1 hP.2.2)
    (fun df i r c hP => defectsInner_miss S x xdot imesh i df r c hP)
    (fun i j r c h1 h2 => slot_eq h1.2.1 h1.2.2 h2.2.1 h2.2.2)
    S.degree df (r / S.numStates) r c
    (by
      rw [Nat.div_lt_iff_lt_mul hNS]
      omega)
    ⟨hc, by omega, by omega⟩
  rw [key]
  have harg : r - (r / S.numStates) * S.numStates = r % S.numStates := by
    omega
  simp only [harg]

/-- Middle defect loop: a position outside `[0, degree * NS) × {imesh}` is
unchanged. -/
theorem defectsMid_miss (S : LegendreGaussRadau)
    (x : ℕ → ℕ → ℕ → ℚ) (xdot : ℕ → ℕ → ℚ) (imesh : ℕ)
    (df : ℕ → ℕ → ℚ) (r c : ℕ)
    (h : ¬(c = imesh ∧ r < S.degree * S.numStates)) :
    (List.range S.degree).foldl
      (fun df d =>
        (List.range S.numStates).foldl
          (fun df s =>
            upd2 df (d * S.numStates + s) imesh
              (S.residualEntry x xdot imesh s d))
          df)
      df r c
    = df r c := by
  refine foldlWrite2_miss _
    (fun d r c =>
      c = imesh ∧ d * S.numStates ≤ r ∧ r < d * S.numStates + S.numStates)
    (fun df i r c hP => defectsInner_miss S x xdot imesh i df r c hP)
    S.degree df r c ?_
  intro d hd hP
  apply h
  refine ⟨hP.1, ?_⟩
  have hmul : (d + 1) * S.numStates ≤ S.degree * S.numStates :=
    Nat.mul_le_mul_right _ hd
  rw [Nat.add_mul, Nat.one_mul] at hmul
  omega

/-- `calcDefectsImpl` writes, at every row `r < degree * NS` of every column
`c < numMeshIntervals`, the residual entry of block `r / NS`, state row
`r % NS`, interval `c`. -/
theorem defects_hit (S : LegendreGaussRadau)
    (x : ℕ → ℕ → ℕ → ℚ) (xdot : ℕ → ℕ → ℚ) (defects : ℕ → ℕ → ℚ)
    (r c : ℕ) (hr : r < S.degree * S.numStates)
    (hc : c < S.numMeshIntervals) :
    S.calcDefectsImpl x xdot defects r c
    = S.residualEntry x xdot c (r % S.numStates) (r / S.numStates) := by
  unfold LegendreGaussRadau.calcDefectsImpl
  exact foldlWrite2_hit _
    (fun imesh r c => c = imesh ∧ r < S.degree * S.numStates)
    (fun imesh r c =>
      S.residualEntry x xdot imesh (r % S.numStates) (r / S.numStates))
    (fun df imesh r c hP => defectsMid_hit S x xdot imesh df r c hP.1 hP.2)
    (fun df imesh r c hP => defectsMid_miss S x xdot imesh df r c hP)
    (fun i j r c h1 h2 => by omega)
    S.numMeshIntervals defects c r c hc ⟨rfl, hr⟩

/-- `calcDefectsImpl` leaves every entry outside the
`(degree * NS) × numMeshIntervals` block unchanged. -/
theorem defects_miss (S : LegendreGaussRadau)
    (x : ℕ → ℕ → ℕ → ℚ) (xdot : ℕ → ℕ → ℚ) (defects : ℕ → ℕ → ℚ)
    (r c : ℕ)
    (h : S.degree * S.numStates ≤ r ∨ S.numMeshIntervals ≤ c) :
    S.calcDefectsImpl x xdot defects r c = defects r c := by
  unfold LegendreGaussRadau.calcDefectsImpl
  refine foldlWrite2_miss _
    (fun imesh r c => c = imesh ∧ r < S.degree * S.numStates)
    (fun df imesh r c hP => defectsMid_miss S x xdot imesh df r c hP)
    S.numMeshIntervals defects r c ?_
  intro imesh hi hP
  rcases h with h | h
  · omega
  · omega

/-!
Characterisation of `calcInterpolatingVariables`.
-/

/-- Innermost interpolation loop (one slice assignment): every row below
`nrows` of column `imesh * (degree - 1) + d` receives the interpolation
residual. -/
theorem interpInner_hit (S : LegendreGaussRadau) (nrows : ℕ)
    (vars : ℕ → ℕ → ℚ) (imesh d : ℕ) (iv : ℕ → ℕ → ℚ) (r c : ℕ)
    (hr : r < nrows) (hc : c = imesh * (S.degree - 1) + d) :
    (List.range nrows).foldl
      (fun iv r =>
        upd2 iv r (imesh * (S.degree - 1) + d) (S.interpEntry vars r imesh d))
      iv r c
    = S.interpEntry vars r imesh d := by
  refine foldlWrite2_hit _
    (fun r0 r c => r = r0 ∧ c = imesh * (S.degree - 1) + d)
    (fun r0 r c => S.interpEntry vars r0 imesh d)
    ?_ ?_ ?_ nrows iv r r c hr ⟨rfl, hc⟩
  · intro iv i r c hP
    simp [upd2, hP.1, hP.2]
  · intro iv i r c hP
    simp only [upd2]
    rw [if_neg hP]
  · intro i j r c h1 h2
    omega

/-- Innermost interpolation loop: positions off the written column, or rows
at or above `nrows`, are unchanged. -/
theorem interpInner_miss (S : LegendreGaussRadau) (nrows : ℕ)
    (vars : ℕ → ℕ → ℚ) (imesh d : ℕ) (iv : ℕ → ℕ → ℚ) (r c : ℕ)
    (h : ¬(r < nrows ∧ c = imesh * (S.degree - 1) + d)) :
    (List.range nrows).foldl
      (fun iv r =>
        upd2 iv r (imesh * (S.degree - 1) + d) (S.interpEntry vars r imesh d))
      iv r c
    = iv r c := by
  refine foldlWrite2_miss _
    (fun r0 r c => r = r0 ∧ c = imesh * (S.degree - 1) + d)
    ?_ nrows iv r c ?_
  · intro iv i r c hP
    simp only [upd2]
    rw [if_neg hP]
  · intro r0 hr0 hP
    exact h ⟨by omega, hP.2⟩

/-- Middle interpolation loop (over `d`) for one interval: any row below
`nrows` of a column in the interval's window receives the residual of its
interior index. -/
theorem interpMid_hit (S : LegendreGaussRadau) (nrows : ℕ)
    (vars : ℕ → ℕ → ℚ) (imesh : ℕ) (iv : ℕ → ℕ → ℚ) (r c : ℕ)
    (hr : r < nrows) (hlo : imesh * (S.degree - 1) ≤ c)
    (hhi : c < imesh * (S.degree - 1) + (S.degree - 1)) :
    (List.range (S.degree - 1)).foldl
      (fun iv d =>
        (List.range nrows).foldl
          (fun iv r =>
            upd2 iv r (imesh * (S.degree - 1) + d)
              (S.interpEntry vars r imesh d))
          iv)
      iv r c
    = S.interpEntry vars r imesh (c - imesh * (S.degree - 1)) := by
  refine foldlWrite2_hit _
    (fun d r c => r < nrows ∧ c = imesh * (S.degree - 1) + d)
    (fun d r c => S.interpEntry vars r imesh d)
    ?_ ?_ ?_ (S.degree - 1) iv (c - imesh * (S.degree - 1)) r c (by omega)
    ⟨hr, by omega⟩
  · intro iv i r c hP
    exact interpInner_hit S nrows vars imesh i iv r c hP.1 hP.2
  · intro iv i r c hP
    exact interpInner_miss S nrows vars imesh i iv r c hP
  · intro i j r c h1 h2
    omega

/-- Middle interpolation loop: a position outside the interval's window is
unchanged. -/
theorem interpMid_miss (S : LegendreGaussRadau) (nrows : ℕ)
    (vars : ℕ → ℕ → ℚ) (imesh : ℕ) (iv : ℕ → ℕ → ℚ) (r c : ℕ)
    (h : ¬(r < nrows ∧ imesh * (S.degree - 1) ≤ c
        ∧ c < imesh * (S.degree - 1) + (S.degree - 1))) :
    (List.range (S.degree - 1)).foldl
      (fun iv d =>
        (List.range nrows).foldl
          (fun iv r =>
            upd2 iv r (imesh * (S.degree - 1) + d)
              (S.interpEntry vars r imesh d))
          iv)
      iv r c
    = iv r c := by
  refine foldlWrite2_miss _
    (fun d r c => r < nrows ∧ c = imesh * (S.degree - 1) + d)
    (fun iv i r c hP => interpInner_miss S nrows vars imesh i iv r c hP)
    (S.degree - 1) iv r c ?_
  intro d hd hP
  exact h ⟨hP.1, by omega, by omega⟩

/-- `calcInterpolatingVariables` writes, at every row `r < nrows` of every
column `c < numMeshIntervals * (degree - 1)`, the interpolation residual of
interval `c / (degree - 1)`, interior index `c % (degree - 1)`. -/
theorem interp_hit (S : LegendreGaussRadau) (nrows : ℕ)
    (vars iv : ℕ → ℕ → ℚ) (r c : ℕ) (hr : r < nrows)
    (hc : c < S.numMeshIntervals * (S.degree - 1)) :
    S.calcInterpolatingVariables nrows vars iv r c
    = S.interpEntry vars r (c / (S.degree - 1)) (c % (S.degree - 1)) := by
  have hD : 0 < S.degree - 1 := by
    rcases Nat.eq_zero_or_pos (S.degree - 1) with h0 | hpos
    · rw [h0, Nat.mul_zero] at hc
      omega
    · exact hpos
  have hdm := Nat.div_add_mod c (S.degree - 1)
  have hml : c % (S.degree - 1) < S.degree - 1 := Nat.mod_lt _ hD
  have hcm : (S.degree - 1) * (c / (S.degree - 1))
      = (c / (S.degree - 1)) * (S.degree - 1) := Nat.mul_comm _ _
  unfold LegendreGaussRadau.calcInterpolatingVariables
  have key := foldlWrite2_hit _
    (fun imesh r c => r < nrows ∧ imesh * (S.degree - 1) ≤ c
        ∧ c < imesh * (S.degree - 1) + (S.degree - 1))
    (fun imesh r c => S.interpEntry vars r imesh (c - imesh * (S.degree - 1)))
    (fun iv imesh r c hP =>
      interpMid_hit S nrows vars imesh iv r c hP.1 hP.2.1 hP.2.2)
    (fun iv imesh r c hP => interpMid_miss S nrows vars imesh iv r c hP)
    (fun i j r c h1 h2 => slot_eq h1.2.1 h1.2.2 h2.2.1 h2.2.2)
    S.numMeshIntervals iv (c / (S.degree - 1)) r c
    (by
      rw [Nat.div_lt_iff_lt_mul hD]
      omega)
    ⟨hr, by omega, by omega⟩
  rw [key]
  have harg : c - c / (S.degree - 1) * (S.degree - 1) = c % (S.degree - 1) := by
    omega
  simp only [harg]

/-- `calcInterpolatingVariables` leaves every entry outside the
`nrows × (numMeshIntervals * (degree - 1))` block unchanged. -/
theorem interp_miss (S : LegendreGaussRadau) (nrows : ℕ)
    (vars iv : ℕ → ℕ → ℚ) (r c : ℕ)
    (h : nrows ≤ r ∨ S.numMeshIntervals * (S.degree - 1) ≤ c) :
    S.calcInterpolatingVariables nrows vars iv r c = iv r c := by
  unfold LegendreGaussRadau.calcInterpolatingVariables
  refine foldlWrite2_miss _
    (fun imesh r c => r < nrows ∧ imesh * (S.degree - 1) ≤ c
        ∧ c < imesh * (S.degree - 1) + (S.degree - 1))
    (fun iv imesh r c hP => interpMid_miss S nrows vars imesh iv r c hP)
    S.numMeshIntervals iv r c ?_
  intro imesh hi hP
  rcases h with h | h
  · omega
  · have hmul : (imesh + 1) * (S.degree - 1)
        ≤ S.numMeshIntervals * (S.degree - 1) :=
      Nat.mul_le_mul_right _ hi
    rw [Nat.add_mul, Nat.one_mul] at hmul
    omega

/-- Block form of `interp_hit`: the column written for interval `imesh`,
interior index `d`. -/
theorem interp_hit_block (S : LegendreGaussRadau) (nrows : ℕ)
    (vars iv : ℕ → ℕ → ℚ) (imesh d r : ℕ)
    (himesh : imesh < S.numMeshIntervals) (hd : d < S.degree - 1)
    (hr : r < nrows) :
    S.calcInterpolatingVariables nrows vars iv r (imesh * (S.degree - 1) + d)
    = S.interpEntry vars r imesh d := by
  unfold LegendreGaussRadau.calcInterpolatingVariables
  have key := foldlWrite2_hit _
    (fun imesh r c => r < nrows ∧ imesh * (S.degree - 1) ≤ c
        ∧ c < imesh * (S.degree - 1) + (S.degree - 1))
    (fun imesh r c => S.interpEntry vars r imesh (c - imesh * (S.degree - 1)))
    (fun iv imesh r c hP =>
      interpMid_hit S nrows vars imesh iv r c hP.1 hP.2.1 hP.2.2)
    (fun iv imesh r c hP => interpMid_miss S nrows vars imesh iv r c hP)
    (fun i j r c h1 h2 => slot_eq h1.2.1 h1.2.2 h2.2.1 h2.2.2)
    S.numMeshIntervals iv imesh r (imesh * (S.degree - 1) + d) himesh
    ⟨hr, by omega, by omega⟩
  rw [key]
  have harg : imesh * (S.degree - 1) + d - imesh * (S.degree - 1) = d := by
    omega
  simp only [harg]

/-!
The claims.
-/

/-- C1: for every mesh interval `imesh` and local node `d < degree`,
`calcDefectsImpl` writes into rows `[d * numStates, (d+1) * numStates)` of
column `imesh` of the defects output the column `d` of the residual
`h * xdot_interior - x_local * D`: at state row `s`, this is
`(times(igrid + degree) - times(igrid)) * xdot(s, igrid + d + 1)` minus the
inner product of `x[imesh]` row `s` (columns `0..degree`) with column `d`
of the differentiation matrix. -/
theorem C1_defect_block_entries (S : LegendreGaussRadau)
    (x : ℕ → ℕ → ℕ → ℚ) (xdot : ℕ → ℕ → ℚ) (defects : ℕ → ℕ → ℚ)
    (imesh d s : ℕ) (himesh : imesh < S.numMeshIntervals)
    (hd : d < S.degree) (hs : s < S.numStates) :
    S.calcDefectsImpl x xdot defects (d * S.numStates + s) imesh
    = (S.times (imesh * S.degree + S.degree) - S.times (imesh * S.degree))
        * xdot s (imesh * S.degree + d + 1)
      - (Finset.range (S.degree + 1)).sum
          (fun j => x imesh s j * S.differentiationMatrix j d) := by
  have hr : d * S.numStates + s < S.degree * S.numStates := by
    have hmul : (d + 1) * S.numStates ≤ S.degree * S.numStates :=
      Nat.mul_le_mul_right _ hd
    rw [Nat.add_mul, Nat.one_mul] at hmul
    omega
  rw [defects_hit S x xdot defects (d * S.numStates + s) imesh hr himesh]
  have hmod : (d * S.numStates + s) % S.numStates = s := by
    rw [Nat.mul_comm, Nat.mul_add_mod]
    exact Nat.mod_eq_of_lt hs
  have hdiv : (d * S.numStates + s) / S.numStates = d := by
    have h0 : 0 < S.numStates := by omega
    rw [Nat.mul_comm, Nat.mul_add_div h0, Nat.div_eq_of_lt hs, Nat.add_zero]
  rw [hmod, hdiv]
  rfl

/-- Witness for C1 at the sample configuration, interval 0, node 1, state
row 0. -/
theorem C1_witness :
    (0 < sampleLGR.numMeshIntervals ∧ 1 < sampleLGR.degree
      ∧ 0 < sampleLGR.numStates)
    ∧ sampleLGR.calcDefectsImpl sampleX sampleM sampleN
        (1 * sampleLGR.numStates + 0) 0
      = (sampleLGR.times (0 * sampleLGR.degree + sampleLGR.degree)
          - sampleLGR.times (0 * sampleLGR.degree))
          * sampleM 0 (0 * sampleLGR.degree + 1 + 1)
        - (Finset.range (sampleLGR.degree + 1)).sum
            (fun j => sampleX 0 0 j * sampleLGR.differentiationMatrix j 1) :=
  ⟨⟨by decide, by decide, by decide⟩,
    C1_defect_block_entries sampleLGR sampleX sampleM sampleN 0 1 0
      (by decide) (by decide) (by decide)⟩

/-- C2: the quadrature coefficient vector has entry 0 equal to 0, and every
entry `i` in `[1, numGridPoints)` equal to the single contribution
`w[(i-1) % degree] * (mesh[(i-1)/degree + 1] - mesh[(i-1)/degree])` of the
one interval `(i-1) / degree` that touches it. -/
theorem C2_quadrature_entries (S : LegendreGaussRadau) :
    S.createQuadratureCoefficientsImpl 0 = 0
    ∧ ∀ i, 1 ≤ i → i < S.numGridPoints →
        S.createQuadratureCoefficientsImpl i
        = S.quadratureCoefficients ((i - 1) % S.degree)
            * (S.mesh.getD ((i - 1) / S.degree + 1) 0
                - S.mesh.getD ((i - 1) / S.degree) 0) := by
  refine ⟨quad_entry_zero S, fun i h1 h2 => ?_⟩
  rw [quad_entry_hit S i h1 h2]
  rfl

/-- Witness for C2 at the sample configuration, entry 1. -/
theorem C2_witness :
    (1 ≤ 1 ∧ 1 < sampleLGR.numGridPoints)
    ∧ sampleLGR.createQuadratureCoefficientsImpl 0 = 0
    ∧ sampleLGR.createQuadratureCoefficientsImpl 1
      = sampleLGR.quadratureCoefficients ((1 - 1) % sampleLGR.degree)
          * (sampleLGR.mesh.getD ((1 - 1) / sampleLGR.degree + 1) 0
              - sampleLGR.mesh.getD ((1 - 1) / sampleLGR.degree) 0) :=
  ⟨⟨le_refl 1, by decide⟩, (C2_quadrature_entries sampleLGR).1,
    (C2_quadrature_entries sampleLGR).2 1 (le_refl 1) (by decide)⟩

/-- C3: the mesh-indices vector is 1 exactly at the indices `k * degree`
for `k ≤ numMeshIntervals`, 0 elsewhere, its values lie in `{0, 1}`, and it
holds exactly `numMeshIntervals + 1` ones among its `numGridPoints`
entries. -/
theorem C3_mesh_indices (S : LegendreGaussRadau) (hdeg : 1 ≤ S.degree) :
    (∀ j, j < S.numGridPoints →
        (S.createMeshIndicesImpl j = 1
          ↔ ∃ k, k ≤ S.numMeshIntervals ∧ j = k * S.degree))
    ∧ (∀ j, j < S.numGridPoints →
        S.createMeshIndicesImpl j = 1 ∨ S.createMeshIndicesImpl j = 0)
    ∧ ((Finset.range S.numGridPoints).filter
          (fun j => S.createMeshIndicesImpl j = 1)).card
        = S.numMeshIntervals + 1 := by
  have hiff : ∀ j, S.createMeshIndicesImpl j = 1
      ↔ ∃ k, k ≤ S.numMeshIntervals ∧ j = k * S.degree := by
    intro j
    constructor
    · intro h1
      by_contra hne
      push_neg at hne
      rw [meshIndices_zero S j hne] at h1
      norm_num at h1
    · rintro ⟨k, hk, hj⟩
      exact meshIndices_one S j k hk hj
  refine ⟨fun j _ => hiff j, fun j _ => ?_, ?_⟩
  · by_cases hex : ∃ k, k ≤ S.numMeshIntervals ∧ j = k * S.degree
    · exact Or.inl ((hiff j).mpr hex)
    · push_neg at hex
      exact Or.inr (meshIndices_zero S j hex)
  · have hset : (Finset.range S.numGridPoints).filter
        (fun j => S.createMeshIndicesImpl j = 1)
        = (Finset.range (S.numMeshIntervals + 1)).image
            (fun k => k * S.degree) := by
      apply Finset.ext
      intro j
      simp only [Finset.mem_filter, Finset.mem_range, Finset.mem_image]
      constructor
      · rintro ⟨hjG, h1⟩
        obtain ⟨k, hk, hj⟩ := (hiff j).mp h1
        exact ⟨k, by omega, hj.symm⟩
      · rintro ⟨k, hk, hj⟩
        have hkM : k ≤ S.numMeshIntervals := by omega
        refine ⟨?_, (hiff j).mpr ⟨k, hkM, hj.symm⟩⟩
        have hmono : k * S.degree ≤ S.numMeshIntervals * S.degree :=
          Nat.mul_le_mul_right _ hkM
        have hG : S.numGridPoints = S.numMeshIntervals * S.degree + 1 := rfl
        omega
    rw [hset, Finset.card_image_of_injective _
      (fun a b h => Nat.eq_of_mul_eq_mul_right (by omega) h),
      Finset.card_range]

/-- Witness for C3 at the spec scenario `mesh = [0, 0.5, 1]`, degree 3:
`numGridPoints = 7` and the indicator has exactly 3 ones, at 0, 3 and 6. -/
theorem C3_witness :
    (1 ≤ sampleLGR.degree ∧ sampleLGR.numGridPoints = 7)
    ∧ (sampleLGR.createMeshIndicesImpl 3 = 1
        ↔ ∃ k, k ≤ sampleLGR.numMeshIntervals ∧ 3 = k * sampleLGR.degree)
    ∧ ((Finset.range sampleLGR.numGridPoints).filter
          (fun j => sampleLGR.createMeshIndicesImpl j = 1)).card
        = sampleLGR.numMeshIntervals + 1 :=
  ⟨⟨by decide, by decide⟩,
    (C3_mesh_indices sampleLGR (by decide)).1 3 (by decide),
    (C3_mesh_indices sampleLGR (by decide)).2.2⟩

/-- C4: when the interpolation engine runs, the residual written at column
`imesh * (degree - 1) + k` equals
`actual - (x_i + legendreRoots[k] * (x_{i+1} - x_i))`, where `x_i`,
`x_{i+1}` are the columns at grid indices `imesh * degree` and
`imesh * degree + degree`, and `actual` the column at grid index
`imesh * degree + k + 1`; with boundary values 0 and 1 it reduces to
`actual - legendreRoots[k]`. -/
theorem C4_interp_residual (S : LegendreGaussRadau) (nrows : ℕ)
    (vars iv : ℕ → ℕ → ℚ) (imesh k r : ℕ)
    (himesh : imesh < S.numMeshIntervals) (hk : k < S.degree - 1)
    (hr : r < nrows) :
    (S.calcInterpolatingVariables nrows vars iv r
        (imesh * (S.degree - 1) + k)
      = vars r (imesh * S.degree + k + 1)
        - (vars r (imesh * S.degree)
           + S.legendreRoots k
             * (vars r (imesh * S.degree + S.degree)
                 - vars r (imesh * S.degree))))
    ∧ (vars r (imesh * S.degree) = 0 →
        vars r (imesh * S.degree + S.degree) = 1 →
        S.calcInterpolatingVariables nrows vars iv r
            (imesh * (S.degree - 1) + k)
          = vars r (imesh * S.degree + k + 1) - S.legendreRoots k) := by
  have key := interp_hit_block S nrows vars iv imesh k r himesh hk hr
  constructor
  · rw [key]
    unfold LegendreGaussRadau.interpEntry
    ring
  · intro h0 h1
    rw [key]
    unfold LegendreGaussRadau.interpEntry
    rw [h0, h1]
    ring

/-- Witness for C4 at the sample configuration, interval 0, interior index
0, one row. -/
theorem C4_witness :
    (0 < sampleLGR.numMeshIntervals ∧ 0 < sampleLGR.degree - 1 ∧ 0 < 1)
    ∧ sampleLGR.calcInterpolatingVariables 1 sampleM sampleN 0
        (0 * (sampleLGR.degree - 1) + 0)
      = sampleM 0 (0 * sampleLGR.degree + 0 + 1)
        - (sampleM 0 (0 * sampleLGR.degree)
           + sampleLGR.legendreRoots 0
             * (sampleM 0 (0 * sampleLGR.degree + sampleLGR.degree)
                 - sampleM 0 (0 * sampleLGR.degree))) :=
  ⟨⟨by decide, by decide, by decide⟩,
    (C4_interp_residual sampleLGR 1 sampleM sampleN 0 0 0
      (by decide) (by decide) (by decide)).1⟩

/-- C5: each interpolation operation is gated by its own class's flag and
count: with the flag false or the count zero the output argument is
returned unchanged (no constraints emitted), independently of the other
class; with the flag true and the count nonzero it computes the
interpolation residuals. -/
theorem C5_interp_gating (S : LegendreGaussRadau)
    (controls interpControls multipliers interpMultipliers : ℕ → ℕ → ℚ) :
    ((S.numControls = 0 ∨ S.interpolateControlMidpoints = false) →
      S.calcInterpolatingControlsImpl controls interpControls
        = interpControls)
    ∧ (S.numControls ≠ 0 → S.interpolateControlMidpoints = true →
      S.calcInterpolatingControlsImpl controls interpControls
        = S.calcInterpolatingVariables S.numControls controls interpControls)
    ∧ ((S.numMultipliers = 0 ∨ S.interpolateMultiplierMidpoints = false) →
      S.calcInterpolatingMultipliersImpl multipliers interpMultipliers
        = interpMultipliers)
    ∧ (S.numMultipliers ≠ 0 → S.interpolateMultiplierMidpoints = true →
      S.calcInterpolatingMultipliersImpl multipliers interpMultipliers
        = S.calcInterpolatingVariables S.numMultipliers multipliers
            interpMultipliers) := by
  refine ⟨?_, ?_, ?_, ?_⟩
  · intro h
    unfold LegendreGaussRadau.calcInterpolatingControlsImpl
    rw [if_neg]
    rintro ⟨h1, h2⟩
    rcases h with h | h
    · exact h1 h
    · rw [h] at h2
      exact Bool.false_ne_true h2
  · intro h1 h2
    unfold LegendreGaussRadau.calcInterpolatingControlsImpl
    rw [if_pos ⟨h1, h2⟩]
  · intro h
    unfold LegendreGaussRadau.calcInterpolatingMultipliersImpl
    rw [if_neg]
    rintro ⟨h1, h2⟩
    rcases h with h | h
    · exact h1 h
    · rw [h] at h2
      exact Bool.false_ne_true h2
  · intro h1 h2
    unfold LegendreGaussRadau.calcInterpolatingMultipliersImpl
    rw [if_pos ⟨h1, h2⟩]

/-- Witness for C5: at the sample configuration the controls (count 1, flag
on) are interpolated while the multipliers (count 2, flag off) leave the
output untouched. -/
theorem C5_witness :
    (sampleLGR.numControls ≠ 0
      ∧ sampleLGR.interpolateControlMidpoints = true
      ∧ sampleLGR.interpolateMultiplierMidpoints = false
      ∧ sampleLGR.numMultipliers ≠ 0)
    ∧ sampleLGR.calcInterpolatingControlsImpl sampleM sampleN
        = sampleLGR.calcInterpolatingVariables sampleLGR.numControls
            sampleM sampleN
    ∧ sampleLGR.calcInterpolatingMultipliersImpl sampleM sampleN = sampleN :=
  ⟨⟨by decide, by decide, by decide, by decide⟩,
    (C5_interp_gating sampleLGR sampleM sampleN sampleM sampleN).2.1
      (by decide) (by decide),
    (C5_interp_gating sampleLGR sampleM sampleN sampleM sampleN).2.2.1
      (Or.inr (by decide))⟩

/-- Helper for C6: the per-entry contributions sum blockwise into one term
`(sum of the base weights) * meshIntervals(imesh)` per interval. -/
theorem quad_block_sum (S : LegendreGaussRadau) (M : ℕ) :
    (Finset.range (M * S.degree)).sum
      (fun t => S.quadratureCoefficients (t % S.degree)
        * S.meshIntervals (t / S.degree))
    = (Finset.range M).sum
        (fun imesh => ((Finset.range S.degree).sum S.quadratureCoefficients)
          * S.meshIntervals imesh) := by
  induction M with
  | zero => simp
  | succ m ih =>
    have hM : (m + 1) * S.degree = m * S.degree + S.degree := by ring
    rw [hM, Finset.sum_range_add, ih, Finset.sum_range_succ]
    congr 1
    have hc : ∀ i ∈ Finset.range S.degree,
        S.quadratureCoefficients ((m * S.degree + i) % S.degree)
          * S.meshIntervals ((m * S.degree + i) / S.degree)
        = S.quadratureCoefficients i * S.meshIntervals m := by
      intro i hi
      rw [Finset.mem_range] at hi
      have hmod : (m * S.degree + i) % S.degree = i := by
        rw [Nat.mul_comm, Nat.mul_add_mod]
        exact Nat.mod_eq_of_lt hi
      have hdiv : (m * S.degree + i) / S.degree = m := by
        have h0 : 0 < S.degree := by omega
        rw [Nat.mul_comm, Nat.mul_add_div h0, Nat.div_eq_of_lt hi,
          Nat.add_zero]
      rw [hmod, hdiv]
    rw [Finset.sum_congr rfl hc, ← Finset.sum_mul]

/-- C6: the quadrature coefficients telescope: their total equals
`(sum of base weights) * (mesh[last] - mesh[0])`; in particular, when the
base weights sum to 1 and the mesh runs from 0 to 1, the total is exactly
1, so a constant integrand is integrated exactly. -/
theorem C6_quadrature_total (S : LegendreGaussRadau) :
    (Finset.range S.numGridPoints).sum S.createQuadratureCoefficientsImpl
      = ((Finset.range S.degree).sum S.quadratureCoefficients)
        * (S.mesh.getD S.numMeshIntervals 0 - S.mesh.getD 0 0)
    ∧ ((Finset.range S.degree).sum S.quadratureCoefficients = 1 →
        S.mesh.getD 0 0 = 0 → S.mesh.getD S.numMeshIntervals 0 = 1 →
        (Finset.range S.numGridPoints).sum S.createQuadratureCoefficientsImpl
          = 1) := by
  have main : (Finset.range S.numGridPoints).sum
      S.createQuadratureCoefficientsImpl
      = ((Finset.range S.degree).sum S.quadratureCoefficients)
        * (S.mesh.getD S.numMeshIntervals 0 - S.mesh.getD 0 0) := by
    have hG : S.numGridPoints = S.numMeshIntervals * S.degree + 1 := rfl
    rw [hG, Finset.sum_range_succ' _ (S.numMeshIntervals * S.degree),
      quad_entry_zero S, add_zero]
    have hcong : ∀ t ∈ Finset.range (S.numMeshIntervals * S.degree),
        S.createQuadratureCoefficientsImpl (t + 1)
        = S.quadratureCoefficients (t % S.degree)
            * S.meshIntervals (t / S.degree) := by
      intro t ht
      rw [Finset.mem_range] at ht
      have key := quad_entry_hit S (t + 1) (by omega) (by rw [hG]; omega)
      simpa using key
    rw [Finset.sum_congr rfl hcong, quad_block_sum S S.numMeshIntervals,
      ← Finset.mul_sum]
    congr 1
    simp only [LegendreGaussRadau.meshIntervals]
    exact Finset.sum_range_sub (fun i => S.mesh.getD i 0) S.numMeshIntervals
  refine ⟨main, fun hw h0 h1 => ?_⟩
  rw [main, hw, h0, h1]
  norm_num

/-- Witness for C6 at the sample configuration with unit-sum Radau weights
over the mesh `[0, 0.5, 1]`. -/
theorem C6_witness :
    ((Finset.range sampleLGRw.degree).sum sampleLGRw.quadratureCoefficients
        = 1
      ∧ sampleLGRw.mesh.getD 0 0 = 0
      ∧ sampleLGRw.mesh.getD sampleLGRw.numMeshIntervals 0 = 1)
    ∧ (Finset.range sampleLGRw.numGridPoints).sum
        sampleLGRw.createQuadratureCoefficientsImpl = 1 :=
  ⟨⟨by norm_num [sampleLGRw, sampleLGR, Finset.sum_range_succ],
      by decide, by decide⟩,
    (C6_quadrature_total sampleLGRw).2
      (by norm_num [sampleLGRw, sampleLGR, Finset.sum_range_succ])
      (by decide) (by decide)⟩

/-- C7: `calcDefectsImpl` writes exactly the
`(degree * numStates) × numMeshIntervals` block of residual entries and
leaves everything else unchanged; when active, each interpolation
operation writes exactly the rows below its class's count of the
`numMeshIntervals * (degree - 1)` residual columns and leaves everything
else unchanged. -/
theorem C7_output_shapes (S : LegendreGaussRadau)
    (x : ℕ → ℕ → ℕ → ℚ) (xdot : ℕ → ℕ → ℚ) (defects : ℕ → ℕ → ℚ)
    (controls interpControls multipliers interpMultipliers : ℕ → ℕ → ℚ) :
    (∀ r c, r < S.degree * S.numStates → c < S.numMeshIntervals →
        S.calcDefectsImpl x xdot defects r c
        = S.residualEntry x xdot c (r % S.numStates) (r / S.numStates))
    ∧ (∀ r c, S.degree * S.numStates ≤ r ∨ S.numMeshIntervals ≤ c →
        S.calcDefectsImpl x xdot defects r c = defects r c)
    ∧ (S.numControls ≠ 0 → S.interpolateControlMidpoints = true →
        (∀ r c, r < S.numControls →
            c < S.numMeshIntervals * (S.degree - 1) →
          S.calcInterpolatingControlsImpl controls interpControls r c
          = S.interpEntry controls r (c / (S.degree - 1))
              (c % (S.degree - 1)))
        ∧ (∀ r c, S.numControls ≤ r
              ∨ S.numMeshIntervals * (S.degree - 1) ≤ c →
          S.calcInterpolatingControlsImpl controls interpControls r c
          = interpControls r c))
    ∧ (S.numMultipliers ≠ 0 → S.interpolateMultiplierMidpoints = true →
        (∀ r c, r < S.numMultipliers →
            c < S.numMeshIntervals * (S.degree - 1) →
          S.calcInterpolatingMultipliersImpl multipliers interpMultipliers
              r c
          = S.interpEntry multipliers r (c / (S.degree - 1))
              (c % (S.degree - 1)))
        ∧ (∀ r c, S.numMultipliers ≤ r
              ∨ S.numMeshIntervals * (S.degree - 1) ≤ c →
          S.calcInterpolatingMultipliersImpl multipliers interpMultipliers
              r c
          = interpMultipliers r c)) := by
  refine ⟨fun r c hr hc => defects_hit S x xdot defects r c hr hc,
    fun r c h => defects_miss S x xdot defects r c h, ?_, ?_⟩
  · intro h1 h2
    have hif : S.calcInterpolatingControlsImpl controls interpControls
        = S.calcInterpolatingVariables S.numControls controls
            interpControls := by
      unfold LegendreGaussRadau.calcInterpolatingControlsImpl
      rw [if_pos ⟨h1, h2⟩]
    rw [hif]
    exact ⟨fun r c hr hc =>
        interp_hit S S.numControls controls interpControls r c hr hc,
      fun r c h => interp_miss S S.numControls controls interpControls r c h⟩
  · intro h1 h2
    have hif : S.calcInterpolatingMultipliersImpl multipliers
        interpMultipliers
        = S.calcInterpolatingVariables S.numMultipliers multipliers
            interpMultipliers := by
      unfold LegendreGaussRadau.calcInterpolatingMultipliersImpl
      rw [if_pos ⟨h1, h2⟩]
    rw [hif]
    exact ⟨fun r c hr hc =>
        interp_hit S S.numMultipliers multipliers interpMultipliers r c hr hc,
      fun r c h =>
        interp_miss S S.numMultipliers multipliers interpMultipliers r c h⟩

/-- Witness for C7 at the sample configuration: row 5 lies outside the
`3 × 1` defect block and is unchanged. -/
theorem C7_witness :
    (sampleLGR.degree * sampleLGR.numStates ≤ 5)
    ∧ sampleLGR.calcDefectsImpl sampleX sampleM sampleN 5 0 = sampleN 5 0 :=
  ⟨by decide,
    (C7_output_shapes sampleLGR sampleX sampleM sampleN sampleM sampleN
        sampleM sampleN).2.1 5 0 (Or.inl (by decide))⟩

/-- C8: every engine operation is a pure function of the configuration and
its decision-variable arguments: equal inputs give equal outputs (and, the
embedding being functional, no operation mutates the structural tables). -/
theorem C8_determinism (S1 S2 : LegendreGaussRadau)
    (x1 x2 : ℕ → ℕ → ℕ → ℚ) (xdot1 xdot2 defects1 defects2 : ℕ → ℕ → ℚ)
    (controls1 controls2 ic1 ic2 mult1 mult2 im1 im2 : ℕ → ℕ → ℚ)
    (hS : S1 = S2) (hx : x1 = x2) (hxd : xdot1 = xdot2)
    (hdf : defects1 = defects2) (hc : controls1 = controls2)
    (hic : ic1 = ic2) (hm : mult1 = mult2) (him : im1 = im2) :
    S1.createQuadratureCoefficientsImpl = S2.createQuadratureCoefficientsImpl
    ∧ S1.createMeshIndicesImpl = S2.createMeshIndicesImpl
    ∧ S1.calcDefectsImpl x1 xdot1 defects1
        = S2.calcDefectsImpl x2 xdot2 defects2
    ∧ S1.calcInterpolatingControlsImpl controls1 ic1
        = S2.calcInterpolatingControlsImpl controls2 ic2
    ∧ S1.calcInterpolatingMultipliersImpl mult1 im1
        = S2.calcInterpolatingMultipliersImpl mult2 im2 := by
  subst hS hx hxd hdf hc hic hm him
  exact ⟨rfl, rfl, rfl, rfl, rfl⟩

/-- Witness for C8 at the sample configuration and sample buffers. -/
theorem C8_witness :
    sampleLGR.createQuadratureCoefficientsImpl
      = sampleLGR.createQuadratureCoefficientsImpl
    ∧ sampleLGR.createMeshIndicesImpl = sampleLGR.createMeshIndicesImpl
    ∧ sampleLGR.calcDefectsImpl sampleX sampleM sampleN
        = sampleLGR.calcDefectsImpl sampleX sampleM sampleN
    ∧ sampleLGR.calcInterpolatingControlsImpl sampleM sampleN
        = sampleLGR.calcInterpolatingControlsImpl sampleM sampleN
    ∧ sampleLGR.calcInterpolatingMultipliersImpl sampleM sampleN
        = sampleLGR.calcInterpolatingMultipliersImpl sampleM sampleN :=
  C8_determinism sampleLGR sampleLGR sampleX sampleX sampleM sampleM
    sampleN sampleN sampleM sampleM sampleN sampleN sampleM sampleM
    sampleN sampleN rfl rfl rfl rfl rfl rfl rfl rfl

/-- C9: `Output<T>::getValue` throws for every list output; for a non-list
output it throws exactly when the state's system stage is strictly below
the depends-on stage; when it does not throw it returns the value of the
bound output function on the owner and the state; and on every throwing
path the result does not depend on the bound output function (no
evaluation happens). -/
theorem C9_getValue_contract (C T : Type) (o : Output C T) (owner : C)
    (st : SimState) :
    (o.isList = true →
      Output.getValue C T o owner st = Except.error OutputExn.todo)
    ∧ (o.isList = false →
      ((∃ e, Output.getValue C T o owner st = Except.error e)
        ↔ st.systemStage < o.dependsOnStage))
    ∧ (o.isList = false → o.dependsOnStage ≤ st.systemStage →
      Output.getValue C T o owner st
        = Except.ok (o.outputFcn owner st emptyChannelName))
    ∧ (∀ g : C → SimState → String → T,
      (∃ e, Output.getValue C T o owner st = Except.error e) →
      Output.getValue C T { o with outputFcn := g } owner st
        = Output.getValue C T o owner st) := by
  refine ⟨?_, ?_, ?_, ?_⟩
  · intro hl
    unfold Output.getValue
    rw [if_pos hl]
  · intro hl
    unfold Output.getValue
    rw [if_neg (by rw [hl]; exact Bool.false_ne_true)]
    by_cases hst : st.systemStage < o.dependsOnStage
    · rw [if_pos hst]
      exact ⟨fun _ => hst, fun _ => ⟨OutputExn.stageTooLow, rfl⟩⟩
    · rw [if_neg hst]
      constructor
      · rintro ⟨e, he⟩
        exact absurd he (by simp)
      · intro h
        exact absurd h hst
  · intro hl hst
    unfold Output.getValue
    rw [if_neg (by rw [hl]; exact Bool.false_ne_true),
      if_neg (Nat.not_lt.mpr hst)]
  · intro g hex
    have hred : Output.getValue C T { o with outputFcn := g } owner st
        = if o.isList = true then Except.error OutputExn.todo
          else if st.systemStage < o.dependsOnStage then
            Except.error OutputExn.stageTooLow
          else Except.ok (g owner st emptyChannelName) := rfl
    rw [hred]
    unfold Output.getValue at hex ⊢
    by_cases hl : o.isList = true
    · rw [if_pos hl, if_pos hl]
    · rw [if_neg hl, if_neg hl]
      by_cases hst : st.systemStage < o.dependsOnStage
      · rw [if_pos hst, if_pos hst]
      · exfalso
        rw [if_neg hl, if_neg hst] at hex
        obtain ⟨e, he⟩ := hex
        exact absurd he (by simp)

/-- Witness for C9: a non-list output whose depends-on stage (3) is above
the state's stage (2) reports an error. -/
theorem C9_witness :
    (sampleOutputA.isList = false
      ∧ sampleState.systemStage < sampleOutputA.dependsOnStage)
    ∧ ((∃ e, Output.getValue Unit Unit sampleOutputA () sampleState
          = Except.error e)
        ↔ sampleState.systemStage < sampleOutputA.dependsOnStage) :=
  ⟨⟨rfl, by decide⟩,
    (C9_getValue_contract Unit Unit sampleOutputA () sampleState).2.1 rfl⟩

/-!
Supporting facts for the channel-map part of the `Output` contract: the
convenience constructor of a non-list output creates exactly the single
channel `"one"` owned by the new object, `clearChannels`/`addChannel`
throw on non-list outputs, and the copy constructor preserves the channel
map's keys while rebinding each channel to the new object. -/

/-- The non-list constructor creates exactly one channel, named `"one"`,
owned by the constructed output. -/
theorem output_make_nonlist_single_channel (C T : Type) (oid : ℕ)
    (name : String) (f : C → SimState → String → T) (stage : ℕ) :
    (Output.make C T oid name f stage false).channels
      = [("one", { outputId := oid, name := "one" })] := rfl

/-- `clearChannels` throws on a non-list output, leaving no way to empty
its channel map. -/
theorem output_clearChannels_nonlist_throws (C T : Type) (o : Output C T)
    (h : o.isList = false) :
    Output.clearChannels C T o = Except.error OutputExn.todo := by
  unfold Output.clearChannels
  rw [if_pos h]

/-- `addChannel` throws on a non-list output, leaving no way to extend its
channel map. -/
theorem output_addChannel_nonlist_throws (C T : Type) (o : Output C T)
    (channelName : String) (h : o.isList = false) :
    Output.addChannel C T o channelName = Except.error OutputExn.todo := by
  unfold Output.addChannel
  rw [if_pos h]

/-- The copy constructor keeps the channel names and rebinds every
channel's owning-output pointer to the new object. -/
theorem output_copyConstruct_rebinds (C T : Type) (newId : ℕ)
    (source : Output C T) :
    (Output.copyConstruct C T newId source).channels.map (fun p => p.1)
      = source.channels.map (fun p => p.1)
    ∧ ∀ p, p ∈ (Output.copyConstruct C T newId source).channels →
        p.2.outputId = newId := by
  constructor
  · unfold Output.copyConstruct
    simp
  · intro p hp
    unfold Output.copyConstruct at hp
    simp only [List.mem_map] at hp
    obtain ⟨q, hq, he⟩ := hp
    rw [← he]

/-- C10 (code evaluation at the failing input): the copy assignment
operator `Output<T>::operator=` never returns for any two distinct
outputs, at any call-stack depth: `Output::operator=` calls
`AbstractOutput::operator=`, whose `compatibleAssign` executes
`*this = downcast(o)`, re-entering `Output::operator=` with the same
arguments, so the intended copying and channel rebinding after that call
is unreachable. -/
theorem C10_copy_assign_diverges (C T : Type) (t s : Output C T)
    (hne : t.id ≠ s.id) : ∀ fuel, Output.opAssign C T fuel t s = none := by
  intro fuel
  induction fuel with
  | zero => rfl
  | succ n ih =>
    unfold Output.opAssign
    rw [if_neg hne, ih]

/-- Witness for C10: two concrete distinct outputs exhaust any amount of
fuel. -/
theorem C10_witness :
    sampleOutputA.id ≠ sampleOutputB.id
    ∧ Output.opAssign Unit Unit 5 sampleOutputA sampleOutputB = none :=
  ⟨by decide,
    C10_copy_assign_diverges Unit Unit sampleOutputA sampleOutputB
      (by decide) 5⟩
